import Mathlib

/-!
Shallow embedding of `weatherchecker/core.py` (skybon/weatherchecker-bottle).

Python `Dict[str, str]` values are embedded as association lists without
duplicate keys (`StrMap`); `dict.update` and `dict` equality are embedded
with Python's semantics (update overwrites existing keys in place and
appends new ones; equality compares key/value sets, ignoring insertion
order).  Network fetches and the normalization capability are external
collaborators and enter the model as explicit arguments.  Machine-level
concerns (threads) are embedded by their observable effect on the stored
fields, as noted at each definition.
-/

namespace Weatherchecker

/-! ## Python string dictionaries -/

/-- Embedding of a Python `Dict[str, str]`: an association list, kept
duplicate-free by the `update` operation below. -/
abbrev StrMap := List (String × String)

/-- Python `d[k]` as a total lookup: `some v` for the first binding of `k`. -/
def dictLookup (m : StrMap) (k : String) : Option String :=
  match m with
  | [] => none
  | (k', v) :: rest => if k' = k then some v else dictLookup rest k

/-- Writing one key: Python `d[k] = v` (overwrite in place, else append). -/
def dictInsert (m : StrMap) (k v : String) : StrMap :=
  match m with
  | [] => [(k, v)]
  | (k', v') :: rest =>
      if k' = k then (k, v) :: rest else (k', v') :: dictInsert rest k v

/-- Python `d.update(d2)`: fold the bindings of `d2` into `d` in order. -/
def dictUpdate (m m' : StrMap) : StrMap :=
  m'.foldl (fun acc p => dictInsert acc p.1 p.2) m

/-- Python `d == d2` on string dicts: same key/value set, both ways. -/
def dictBeq (a b : StrMap) : Bool :=
  a.all (fun p => dictLookup b p.1 = some p.2) &&
    b.all (fun p => dictLookup a p.1 = some p.2)

/-! ## URL templates

`WeatherProxy.__init__` resolves `url % url_params` where `url` is a Python
`%`-format string with named placeholders and `url_params` is a
`defaultdict(lambda: '')`.  A template is embedded pre-parsed, as the
sequence of its literal runs and named placeholders. -/

/-- One piece of a `%`-format URL template: a literal run or a named
`%(key)s` placeholder. -/
inductive UrlSeg
  | lit (s : String)
  | key (k : String)
deriving DecidableEq

/-- Embedding of `url % defaultdict(lambda: '', url_params)` (core.py
lines 121–123): each placeholder is replaced by its value in the
parameter dict, a missing key contributing the empty string. -/
def formatUrl (t : List UrlSeg) (params : StrMap) : String :=
  match t with
  | [] => ""
  | .lit s :: rest => s ++ formatUrl rest params
  | .key k :: rest => ((dictLookup params k).getD "") ++ formatUrl rest params

/-! ## Sources, transport, weather proxies -/

/-- A source descriptor (`{'name': ..., 'urls': {category: template}}`). -/
structure Source where
  name : String
  urls : List (String × List UrlSeg)
deriving DecidableEq

/-- The taxonomy of transport errors `requests.get` may raise.  Following
the `requests` exception hierarchy, `connectionRefused`, `hostUnreachable`
and `connectTimeout` are the `requests.exceptions.ConnectionError` cases;
the remaining constructors are the other `RequestException`s. -/
inductive TransportError
  | connectionRefused
  | hostUnreachable
  | connectTimeout
  | readTimeout
  | tooManyRedirects
  | invalidUrl
  | contentDecodingError
deriving DecidableEq

/-- Whether the error is an instance of `requests.exceptions.ConnectionError`
(the class caught by `WeatherProxy.refresh_data`). -/
def TransportError.isConnectionError : TransportError → Bool
  | .connectionRefused => true
  | .hostUnreachable => true
  | .connectTimeout => true
  | _ => false

/-- A received HTTP response (any status code counts as success). -/
structure HttpResponse where
  text : String
  status_code : Int
deriving DecidableEq

/-- The outcome of one `requests.get` call. -/
abbrev FetchOutcome := Except TransportError HttpResponse

/-- State of one `WeatherProxy` (core.py lines 119–134): the URL resolved
once at construction, the stored parameter dict, and the two mutable
fields, `None` before the first refresh. -/
structure WeatherProxy where
  url : String
  url_params : StrMap
  data : Option String
  status_code : Option Int
deriving DecidableEq

/-- `WeatherProxy.__init__(url, url_params)` (core.py lines 120–125):
resolves the URL from the template and the parameter dict (missing keys
giving the empty string) and starts with both mutable fields absent. -/
def WeatherProxy.init (template : List UrlSeg) (url_params : StrMap) : WeatherProxy :=
  { url := formatUrl template url_params
    url_params := url_params
    data := none
    status_code := none }

/-- `WeatherProxy.refresh_data` (core.py lines 127–134) applied to the
outcome of its single `requests.get(self.url)` call: a response stores its
body and status; a `ConnectionError` is caught and stores `""`/`404`; any
other transport error propagates, leaving both fields untouched. -/
def WeatherProxy.refresh_data (p : WeatherProxy) (r : FetchOutcome) :
    Except TransportError WeatherProxy :=
  match r with
  | .ok resp => .ok { p with data := some resp.text, status_code := some resp.status_code }
  | .error e =>
      if e.isConnectionError then
        .ok { p with data := some "", status_code := some 404 }
      else
        .error e

/-! ## The proxy matrix (`WeatherProxyTable`) -/

/-- One matrix entry, `merge_dicts(proxy_entry_schema, {...})` at core.py
line 84.  The override dict supplies all four schema keys, so the merged
entry is exactly the four given fields. -/
structure ProxyEntry where
  proxy : WeatherProxy
  wtype : String
  source : Source
  location : StrMap
deriving DecidableEq

/-- Modelled from the spec: `helpers.db_add` (the repository's
`helpers.py` is not under `src/`) appends one entry to a table — "Appends
one matrix entry per pair" (§4.2), "append is the only mutation" (§4.3). -/
def db_add (table : List α) (entry : α) : List α :=
  table ++ [entry]

/-- The embedding of the exception-throwing `for` loop: apply `f` to each
element in order, stopping at (and returning) the first failure. -/
def mapOpt (f : α → Option β) : List α → Option (List β)
  | [] => some []
  | a :: rest =>
      match f a, mapOpt f rest with
      | some b, some bs => some (b :: bs)
      | _, _ => none

/-- `itertools.product(wtypes, sources)`: all pairs, outer loop over
weather types, inner loop over sources. -/
def wsProduct (wtypes : List String) (sources : List Source) :
    List (String × Source) :=
  wtypes.flatMap (fun w => sources.map (fun s => (w, s)))

/-- Generic first-binding lookup for association lists over `String`
keys (Python `d[k]`, totalised). -/
def dictLookup' (m : List (String × α)) (k : String) : Option α :=
  match m with
  | [] => none
  | (k', v) :: rest => if k' = k then some v else dictLookup' rest k

/-- The loop body of `WeatherProxyTable.add_location` (core.py lines
80–85) for one `(category, source)` pair: build `url_params` as `{}`
updated with the location then the environment params, look the template
up in `source['urls'][category]` (`none` embeds the `KeyError` on a
missing category) and assemble the matrix entry. -/
def mkProxyEntry (category : String) (source : Source) (location params : StrMap) :
    Option ProxyEntry :=
  let url_params := dictUpdate (dictUpdate [] location) params
  (dictLookup' source.urls category).map (fun template =>
    { proxy := WeatherProxy.init template url_params
      wtype := category
      source := source
      location := location })

/-- State of a `WeatherProxyTable` (core.py lines 70–116). -/
structure WeatherProxyTable where
  table : List ProxyEntry
  wtypes : List String
  sources_info : List Source
deriving DecidableEq

/-- `WeatherProxyTable.add_location` (core.py lines 79–85): for every
`(category, source)` pair in product order, build a proxy entry and
append it; `none` embeds the `KeyError` raised when a source lacks a
template for a category. -/
def WeatherProxyTable.add_location (t : WeatherProxyTable)
    (location params : StrMap) : Option WeatherProxyTable :=
  (mapOpt (fun p => mkProxyEntry p.1 p.2 location params)
      (wsProduct t.wtypes t.sources_info)).map
    (fun es => { t with table := t.table ++ es })

/-- Modelled from the spec: `helpers.db_remove` (the repository's
`helpers.py` is not under `src/`) removes every entry matching the query
`{'location': location}` — "removes all entries whose location matches
exactly (structural equality on the location descriptor)" (§4.2).
Structural equality on Python dicts is `dictBeq`. -/
def db_remove_location (table : List ProxyEntry) (location : StrMap) :
    List ProxyEntry :=
  table.filter (fun e => ! dictBeq e.location location)

/-- `WeatherProxyTable.remove_location` (core.py lines 87–88). -/
def WeatherProxyTable.remove_location (t : WeatherProxyTable)
    (location : StrMap) : WeatherProxyTable :=
  { t with table := db_remove_location t.table location }

/-- The observable effect of one refresh worker thread (core.py lines
103–104): `refresh_data` on success (including the caught
`ConnectionError`) overwrites the proxy's two fields; an uncaught
transport error kills only that worker, leaving its proxy's fields
untouched (`self.data`/`self.status_code` are assigned only after
`requests.get` returns). -/
def refreshThread (p : WeatherProxy) (r : FetchOutcome) : WeatherProxy :=
  match p.refresh_data r with
  | .ok p' => p'
  | .error _ => p

/-- `WeatherProxyTable.refresh` (core.py lines 90–101): `db_find` selects
the entries whose `wtype` matches (modelled from the spec: "selects all
entries whose weather-type matches", §4.2 — `helpers.py` is not under
`src/`), one worker per selected entry fetches its proxy, and the caller
joins all workers.  `fetch i` is the outcome of the worker for the entry
at index `i`; non-matching entries are untouched. -/
def WeatherProxyTable.refresh (t : WeatherProxyTable) (wtype : String)
    (fetch : Nat → FetchOutcome) : WeatherProxyTable :=
  { t with
    table := t.table.mapIdx (fun i e =>
      if e.wtype = wtype then { e with proxy := refreshThread e.proxy (fetch i) } else e) }

/-- One row of `proxy_info` (core.py line 114). -/
structure ProxyInfoEntry where
  wtype : String
  source : Source
  data : Option String
  url : String
  location : StrMap
deriving DecidableEq

/-- `WeatherProxyTable.proxy_info` (core.py lines 106–116): one snapshot
per matrix entry, in table order. -/
def WeatherProxyTable.proxy_info (t : WeatherProxyTable) : List ProxyInfoEntry :=
  t.table.map (fun e =>
    { wtype := e.wtype
      source := e.source
      data := e.proxy.data
      url := e.proxy.url
      location := e.location })

/-- `WeatherProxyTable.__init__` (core.py lines 71–77): start from an
empty table and `add_location` each configured location in order. -/
def WeatherProxyTable.init (wtypes : List String) (sources : List Source)
    (locations : List StrMap) (params : StrMap) : Option WeatherProxyTable :=
  locations.foldlM (fun t loc => t.add_location loc params)
    { table := [], wtypes := wtypes, sources_info := sources }

/-! ## The history log (`WeatherHistory`) -/

/-- The measurements mapping produced by normalization (canonical field
name → value). -/
abbrev Measurements := List (String × String)

/-- The external normalization capability `adapters.adapt_weather`
(spec §1 treats per-source normalization as an external collaborator;
`adapters.py` is not under `src/`): given the weather type, the
lowercased source name and the proxy's raw payload (absent before any
refresh), it returns measurements or fails (`none` embeds a raised
exception of any kind). -/
abbrev Normalize := String → String → Option String → Option Measurements

/-- One data entry of a history entry,
`merge_dicts(data_entry_schema, {...})` at core.py line 62.  The override
dict supplies every interesting key, so the merged entry is exactly the
three given fields (modelled from the spec: `HISTORY_DATA_ENTRY_SCHEMA`
and `helpers.merge_dicts` live in `global_settings.py`/`helpers.py`,
which are not under `src/`; §9 describes the merge as schema defaults
overridden by the given fields). -/
structure DataEntry where
  location : StrMap
  source : Source
  measurements : Measurements
deriving DecidableEq

/-- One history entry.  Modelled from the spec: `HISTORY_ENTRY_SCHEMA`
merged with `{'time': ..., 'wtype': ...}` (core.py line 52) starts a
fresh entry with the given time and weather type and an empty `data`
list (`global_settings.py`/`helpers.py` are not under `src/`; §3 lists
exactly these attributes, §9 describes the schema-merge as defaulting). -/
structure HistoryEntry where
  time : String
  wtype : String
  data : List DataEntry
deriving DecidableEq

/-- The fresh entry built at core.py line 52. -/
def mkHistoryEntry (time wtype : String) : HistoryEntry :=
  { time := time, wtype := wtype, data := [] }

/-- Python `str.lower()` (the `source['name'].lower()` at core.py
line 58): lower-case each character. -/
def strLower (s : String) : String :=
  ⟨s.data.map Char.toLower⟩

/-- The `try`/`except` around `adapters.adapt_weather` (core.py lines
57–60): any normalization failure is caught and replaced by the empty
measurements mapping. -/
def normalizeOrEmpty (normalize : Normalize) (wtype : String)
    (raw : ProxyInfoEntry) : Measurements :=
  match normalize wtype (strLower raw.source.name) raw.data with
  | some m => m
  | none => []

/-- `WeatherHistory.add_history_entry` (core.py lines 51–63): start a
fresh entry from the schema, loop over the raw data in order appending
one data entry per raw entry (normalization failures caught per entry),
then append the assembled entry to the log. -/
def add_history_entry (normalize : Normalize) (log : List HistoryEntry)
    (time wtype : String) (raw_data_map : List ProxyInfoEntry) :
    List HistoryEntry :=
  let entry := raw_data_map.foldl (fun acc raw =>
      let d : DataEntry :=
        { location := raw.location
          source := raw.source
          measurements := normalizeOrEmpty normalize wtype raw }
      { acc with data := db_add acc.data d })
    (mkHistoryEntry time wtype)
  db_add log entry

/-! ## The orchestrator (`Core`) -/

/-- State of `Core` (core.py lines 16–29): the proxy matrix and the
history log.  Configuration loading (`Settings`) is an external
collaborator; its resolved values live in the proxy table. -/
structure Core where
  proxies : WeatherProxyTable
  history : List HistoryEntry

/-- `Core.refresh` (core.py lines 26–29): capture the time once, refresh
the matching proxies, then append one history entry built from
`proxy_info`.  `rtime` is the string-encoded clock reading `str(time.time())`
captured at line 27; `fetch` gives each worker's transport outcome. -/
def Core.refresh (c : Core) (wtype rtime : String) (fetch : Nat → FetchOutcome)
    (normalize : Normalize) : Core :=
  let proxies := c.proxies.refresh wtype fetch
  { proxies := proxies
    history := add_history_entry normalize c.history rtime wtype proxies.proxy_info }

/-- The externally supplied inputs of one `Core.refresh` call: the weather
type argument, the clock reading, and the transport outcomes. -/
structure RefreshCall where
  wtype : String
  rtime : String
  fetch : Nat → FetchOutcome

/-- A sequence of `Core.refresh` calls, in order. -/
def runRefreshes (normalize : Normalize) (c : Core) (calls : List RefreshCall) : Core :=
  calls.foldl (fun c call => c.refresh call.wtype call.rtime call.fetch normalize) c

/-! ## The `dates` accessor, at the Python-value level

`WeatherHistory.dates` (core.py lines 38–45) runs
`[entry['time'] for entry in self.__table]` under a `try` that catches
`TypeError` and returns `[]`.  To embed the defensive branch faithfully
the stored table is viewed as untyped Python values. -/

/-- An untyped (JSON-shaped) Python value. -/
inductive PyVal
  | str (s : String)
  | int (n : Int)
  | nullv
  | listv (xs : List PyVal)
  | dict (fields : List (String × PyVal))

/-- The Python exceptions relevant to `dates`. -/
inductive PyErr
  | typeError
  | keyError
deriving DecidableEq

/-- Python subscription `v['time']`: a dict yields its binding or raises
`KeyError`; every non-dict value raises `TypeError`. -/
def subscr (v : PyVal) (k : String) : Except PyErr PyVal :=
  match v with
  | .dict fields =>
      match dictLookup' fields k with
      | some w => .ok w
      | none => .error .keyError
  | _ => .error .typeError

/-- The list comprehension `[entry['time'] for entry in table]`: stops at
(and raises) the first failing subscription. -/
def timesComprehension : List PyVal → Except PyErr (List PyVal)
  | [] => .ok []
  | v :: rest =>
      match subscr v "time", timesComprehension rest with
      | .ok t, .ok ts => .ok (t :: ts)
      | .error e, _ => .error e
      | .ok _, .error e => .error e

/-- `WeatherHistory.dates` (core.py lines 38–45): the comprehension under
`except TypeError: output = []`; a `TypeError` is caught and yields the
empty list, any other exception still propagates (`.error`). -/
def dates (table : List PyVal) : Except PyErr (List PyVal) :=
  match timesComprehension table with
  | .ok out => .ok out
  | .error .typeError => .ok []
  | .error e => .error e

/-- View of a measurements/location dict as a Python value. -/
def StrMap.toPy (m : StrMap) : PyVal :=
  .dict (m.map (fun p => (p.1, .str p.2)))

/-- View of a stored history entry as the Python dict
`{'time': ..., 'wtype': ..., 'data': [...]}` built at core.py
lines 52–62. -/
def HistoryEntry.toPy (e : HistoryEntry) : PyVal :=
  .dict [("time", .str e.time), ("wtype", .str e.wtype),
    ("data", .listv (e.data.map (fun d =>
      .dict [("location", StrMap.toPy d.location),
             ("source", .dict [("name", .str d.source.name)]),
             ("measurements", StrMap.toPy d.measurements)])))]

/-! ## The `entries` accessor: deep copy via JSON round-trip

`WeatherHistory.entries` (core.py lines 47–49) returns
`json.loads(json.dumps(self.__table))`.  The observable content of that
idiom is a deep copy: `json.dumps` serialises the stored object graph and
`json.loads` rebuilds it from all-new objects, so the returned structure
shares no mutable object with the store.  To make sharing and mutation
expressible, Python objects are embedded as nodes of an explicit heap
addressed by allocation order; `json.loads` allocates only fresh
addresses at the end of the heap. -/

/-- One heap cell: a JSON-representable Python object.  Strings, ints and
`None` are immutable leaves; lists and dicts hold the addresses of their
elements, and are the mutable objects. -/
inductive Node
  | str (s : String)
  | int (n : Int)
  | null
  | arr (elems : List Nat)
  | obj (fields : List (String × Nat))
deriving DecidableEq

/-- The heap: cell at address `i` is the `i`-th element; allocation
appends. -/
abbrev Heap := List Node

/-- The addresses a cell points to. -/
def Node.children : Node → List Nat
  | .arr es => es
  | .obj fs => fs.map (fun p => p.2)
  | _ => []

/-- Every cell below `bound` points only below `bound` (no dangling or
forward references out of the region). -/
def closedBelow (bound : Nat) (h : Heap) : Bool :=
  (List.range bound).all (fun i =>
    match h[i]? with
    | some n => n.children.all (fun c => decide (c < bound))
    | none => true)

/-- Copy a list of addresses with a copy function for single addresses,
threading the growing heap left to right. -/
def copyManyWith (f : Heap → Nat → Option (Heap × Nat)) :
    Heap → List Nat → Option (Heap × List Nat)
  | h, [] => some (h, [])
  | h, a :: rest =>
      match f h a with
      | some (h', r) =>
          match copyManyWith f h' rest with
          | some (h'', rs) => some (h'', r :: rs)
          | none => none
      | none => none

/-- Deep-copy the object at address `a` of `src` onto the end of the
working heap `h`, returning the extended heap and the address of the
copy.  Children are copied before their parent, so every fresh cell
points only at earlier fresh cells.  `fuel` bounds the recursion depth
(`json.dumps` raises on circular data; on the acyclic heaps the history
log builds, a large enough fuel always succeeds). -/
def copyAddr (src : Heap) : Nat → Heap → Nat → Option (Heap × Nat)
  | 0, _, _ => none
  | fuel + 1, h, a =>
      match src[a]? with
      | none => none
      | some (.str s) => some (h ++ [.str s], h.length)
      | some (.int n) => some (h ++ [.int n], h.length)
      | some .null => some (h ++ [.null], h.length)
      | some (.arr es) =>
          match copyManyWith (copyAddr src fuel) h es with
          | some (h', rs) => some (h' ++ [.arr rs], h'.length)
          | none => none
      | some (.obj fs) =>
          match copyManyWith (copyAddr src fuel) h (fs.map (fun p => p.2)) with
          | some (h', rs) => some (h' ++ [.obj ((fs.map (fun p => p.1)).zip rs)], h'.length)
          | none => none

/-- `WeatherHistory.entries` (core.py lines 47–49):
`json.loads(json.dumps(table))` with the stored table at `root` — a deep
copy of the stored log allocated entirely in fresh cells of the same
heap. -/
def entries (h : Heap) (root : Nat) (fuel : Nat) : Option (Heap × Nat) :=
  copyAddr h fuel h root

/-- The pure (heap-free) value tree of a Python object — what a reader of
the log observes. -/
inductive Val
  | str (s : String)
  | int (n : Int)
  | null
  | arr (xs : List Val)
  | obj (fs : List (String × Val))

/-- Read the value tree rooted at `a` (fuel-bounded, like `copyAddr`). -/
def readVal (h : Heap) : Nat → Nat → Option Val
  | 0, _ => none
  | fuel + 1, a =>
      match h[a]? with
      | none => none
      | some (.str s) => some (.str s)
      | some (.int n) => some (.int n)
      | some .null => some .null
      | some (.arr es) => (mapOpt (readVal h fuel) es).map .arr
      | some (.obj fs) =>
          (mapOpt (fun p => (readVal h fuel p.2).map (fun v => (p.1, v))) fs).map .obj

/-- Mutating one object in place: Python `x[i] = ...`, `x.append(...)`,
`x[k] = ...` all replace the cell at the object's address. -/
def writeHeap (h : Heap) (a : Nat) (n : Node) : Heap :=
  h.set a n

/-- Reachability along child pointers: the addresses that make up the
structure rooted at `a`. -/
inductive Reach (h : Heap) : Nat → Nat → Prop
  | refl (a : Nat) : Reach h a a
  | step {a b c : Nat} {n : Node} : Reach h a b → h[b]? = some n →
      c ∈ n.children → Reach h a c

/-! ## Operation sequences on the proxy matrix -/

/-- One structural or refresh operation on the proxy matrix, with the
refresh workers' transport outcomes as explicit input. -/
inductive TableOp
  | addLoc (location params : StrMap)
  | doRefresh (wtype : String) (fetch : Nat → FetchOutcome)

/-- Run a sequence of matrix operations (`none` embeds a `KeyError`
escaping `add_location`). -/
def runTableOps (t : WeatherProxyTable) : List TableOp → Option WeatherProxyTable
  | [] => some t
  | .addLoc location params :: rest =>
      match t.add_location location params with
      | some t' => runTableOps t' rest
      | none => none
  | .doRefresh wtype fetch :: rest => runTableOps (t.refresh wtype fetch) rest

/-- The locations added by a sequence of operations, in order. -/
def opLocations (ops : List TableOp) : List StrMap :=
  ops.filterMap (fun op =>
    match op with
    | .addLoc location _ => some location
    | _ => none)

/-- The identifying triple of a matrix entry or snapshot: weather type,
source, location. -/
def shapeOfEntry (e : ProxyEntry) : String × Source × StrMap :=
  (e.wtype, e.source, e.location)

/-- The identifying triple of a `proxy_info` row. -/
def shapeOfInfo (i : ProxyInfoEntry) : String × Source × StrMap :=
  (i.wtype, i.source, i.location)

/-- The data entry recorded for one raw entry by `add_history_entry`
(core.py lines 53–62): its location and source, with the measurements
produced by the guarded normalization. -/
def dataEntryOf (normalize : Normalize) (wtype : String)
    (raw : ProxyInfoEntry) : DataEntry :=
  { location := raw.location
    source := raw.source
    measurements := normalizeOrEmpty normalize wtype raw }

/-! ## Lemmas: `mapOpt` -/

theorem mapOpt_eq_some {α β : Type} {f : α → Option β} :
    ∀ {l : List α} {bs : List β}, mapOpt f l = some bs →
      List.Forall₂ (fun a b => f a = some b) l bs := by
  intro l
  induction l with
  | nil =>
      intro bs h
      simp only [mapOpt, Option.some.injEq] at h
      subst h
      exact List.Forall₂.nil
  | cons a rest ih =>
      intro bs h
      simp only [mapOpt] at h
      cases hfa : f a with
      | none => rw [hfa] at h; simp at h
      | some b =>
          cases hrest : mapOpt f rest with
          | none => rw [hfa, hrest] at h; simp at h
          | some bs' =>
              rw [hfa, hrest] at h
              simp only [Option.some.injEq] at h
              subst h
              exact List.Forall₂.cons hfa (ih hrest)

theorem mapOpt_congr {α β : Type} {f g : α → Option β} :
    ∀ {l : List α}, (∀ a ∈ l, f a = g a) → mapOpt f l = mapOpt g l := by
  intro l
  induction l with
  | nil => intro _; rfl
  | cons a rest ih =>
      intro hfg
      simp only [mapOpt]
      rw [hfg a (List.mem_cons_self a rest), ih (fun x hx => hfg x (List.mem_cons_of_mem a hx))]

/-! ## Lemmas: URL formatting -/

theorem formatUrl_append (params : StrMap) :
    ∀ a b : List UrlSeg, formatUrl (a ++ b) params = formatUrl a params ++ formatUrl b params := by
  intro a b
  induction a with
  | nil => simp only [List.nil_append, formatUrl]; exact (String.empty_append _).symm
  | cons seg rest ih =>
      cases seg with
      | lit s =>
          show s ++ formatUrl (rest ++ b) params
            = (s ++ formatUrl rest params) ++ formatUrl b params
          rw [ih, String.append_assoc]
      | key k =>
          show ((dictLookup params k).getD "") ++ formatUrl (rest ++ b) params
            = (((dictLookup params k).getD "") ++ formatUrl rest params) ++ formatUrl b params
          rw [ih, String.append_assoc]

/-! ## Lemmas: history recording -/

theorem hist_foldl (n : Normalize) (w : String) :
    ∀ (raw : List ProxyInfoEntry) (e : HistoryEntry),
      raw.foldl (fun acc r =>
        let d : DataEntry :=
          { location := r.location
            source := r.source
            measurements := normalizeOrEmpty n w r }
        { acc with data := db_add acc.data d }) e
      = { e with data := e.data ++ raw.map (dataEntryOf n w) } := by
  intro raw
  induction raw with
  | nil => intro e; simp
  | cons r rest ih =>
      intro e
      simp only [List.foldl_cons, List.map_cons]
      rw [ih]
      simp [db_add, dataEntryOf, List.append_assoc]

theorem add_history_entry_eq (n : Normalize) (log : List HistoryEntry)
    (t w : String) (raw : List ProxyInfoEntry) :
    add_history_entry n log t w raw
      = log ++ [{ time := t, wtype := w, data := raw.map (dataEntryOf n w) }] := by
  unfold add_history_entry
  rw [hist_foldl]
  simp [db_add, mkHistoryEntry]

/-! ## Claims C1, C7, C9 -/

/-- C1: `refreshData` on a connection-level failure (a
`requests.exceptions.ConnectionError`: host unreachable, refused, or a
transport-level connect timeout) stores an empty payload and the sentinel
status 404 instead of propagating; any other transport error propagates to
the caller of the refresh; a received response stores its body and
status. -/
theorem claim_C1 (p : WeatherProxy) (e : TransportError) (resp : HttpResponse) :
    (e.isConnectionError = true →
      p.refresh_data (.error e)
        = .ok { p with data := some "", status_code := some 404 }) ∧
    (e.isConnectionError = false → p.refresh_data (.error e) = .error e) ∧
    p.refresh_data (.ok resp)
      = .ok { p with data := some resp.text, status_code := some resp.status_code } := by
  refine ⟨?_, ?_, rfl⟩ <;> intro h <;> simp [WeatherProxy.refresh_data, h]

def pC1 : WeatherProxy :=
  { url := "http://example/x", url_params := [], data := none, status_code := none }

def respC1 : HttpResponse := { text := "", status_code := 200 }

theorem claim_C1_witness :
    (pC1.refresh_data (.error .hostUnreachable)
      = .ok { pC1 with data := some "", status_code := some 404 }) ∧
    pC1.refresh_data (.error .readTimeout) = .error .readTimeout :=
  ⟨(claim_C1 pC1 .hostUnreachable respC1).1 rfl,
   (claim_C1 pC1 .readTimeout respC1).2.1 rfl⟩

/-- C7: `WeatherProxy` construction substitutes each named placeholder of
the template with the corresponding parameter value, a placeholder whose
key is absent resolving to the empty string rather than failing; the
mutable fields start absent. -/
theorem claim_C7 (params : StrMap) :
    (∀ pre k post, dictLookup params k = none →
      (WeatherProxy.init (pre ++ UrlSeg.key k :: post) params).url
        = (WeatherProxy.init pre params).url ++ (WeatherProxy.init post params).url) ∧
    (∀ pre k v post, dictLookup params k = some v →
      (WeatherProxy.init (pre ++ UrlSeg.key k :: post) params).url
        = (WeatherProxy.init pre params).url ++ v ++ (WeatherProxy.init post params).url) ∧
    (∀ t, (WeatherProxy.init t params).data = none ∧
      (WeatherProxy.init t params).status_code = none) := by
  refine ⟨?_, ?_, fun t => ⟨rfl, rfl⟩⟩
  · intro pre k post hk
    show formatUrl (pre ++ UrlSeg.key k :: post) params
      = formatUrl pre params ++ formatUrl post params
    rw [formatUrl_append]
    simp only [formatUrl, hk, Option.getD_none]
    rw [String.empty_append]
  · intro pre k v post hk
    show formatUrl (pre ++ UrlSeg.key k :: post) params
      = formatUrl pre params ++ v ++ formatUrl post params
    rw [formatUrl_append]
    simp only [formatUrl, hk, Option.getD_some]
    exact (String.append_assoc _ _ _).symm

def paramsC7 : StrMap := [("id", "42")]

theorem claim_C7_witness :
    (WeatherProxy.init [UrlSeg.lit "http://a?x=", UrlSeg.key "apikey"] paramsC7).url
      = (WeatherProxy.init [UrlSeg.lit "http://a?x="] paramsC7).url
          ++ (WeatherProxy.init [] paramsC7).url ∧
    (WeatherProxy.init [UrlSeg.key "id"] paramsC7).url
      = (WeatherProxy.init [] paramsC7).url ++ "42" ++ (WeatherProxy.init [] paramsC7).url :=
  ⟨(claim_C7 paramsC7).1 [UrlSeg.lit "http://a?x="] "apikey" [] (by decide),
   (claim_C7 paramsC7).2.1 [] "id" "42" [] (by decide)⟩

/-- C9: one call to `add_history_entry` appends exactly one entry to the
log, whose data sequence has exactly one data entry (with that raw
entry's location, source and guarded measurements) per raw entry, in the
same order — an empty data sequence for an empty raw sequence. -/
theorem claim_C9 (n : Normalize) (log : List HistoryEntry) (t w : String)
    (raw : List ProxyInfoEntry) :
    add_history_entry n log t w raw
      = log ++ [{ time := t, wtype := w, data := raw.map (dataEntryOf n w) }] ∧
    (raw.map (dataEntryOf n w)).length = raw.length ∧
    add_history_entry n log t w []
      = log ++ [{ time := t, wtype := w, data := [] }] :=
  ⟨add_history_entry_eq n log t w raw, by simp,
   by simpa using add_history_entry_eq n log t w []⟩

/-! ## Claims C2, C8, C3 -/

/-- C2: `addHistoryEntry` never raises: it always appends one entry, and
for each raw entry the appended snapshot records a data entry with that
raw entry's location and source whose measurements are the normalization
result when it succeeds and the empty mapping when it fails for any
reason — every other raw entry is still normalized and recorded in the
same appended snapshot. -/
theorem claim_C2 (n : Normalize) (log : List HistoryEntry) (t w : String)
    (raw : List ProxyInfoEntry) :
    ∃ e, add_history_entry n log t w raw = log ++ [e] ∧
      e.data.length = raw.length ∧
      ∀ i : Fin raw.length, ∃ d, e.data[i.val]? = some d ∧
        d.location = (raw.get i).location ∧
        d.source = (raw.get i).source ∧
        (n w (strLower (raw.get i).source.name) ((raw.get i).data) = none →
          d.measurements = []) ∧
        (∀ m, n w (strLower (raw.get i).source.name) ((raw.get i).data) = some m →
          d.measurements = m) := by
  refine ⟨_, add_history_entry_eq n log t w raw, by simp, ?_⟩
  intro i
  refine ⟨dataEntryOf n w (raw.get i), ?_, rfl, rfl, ?_, ?_⟩
  · rw [List.getElem?_map, List.getElem?_eq_getElem i.isLt]
    rfl
  · intro hf
    simp only [List.get_eq_getElem] at hf
    simp [dataEntryOf, normalizeOrEmpty, hf]
  · intro m hm
    simp only [List.get_eq_getElem] at hm
    simp [dataEntryOf, normalizeOrEmpty, hm]

def nzC2 : Normalize := fun _ src _ =>
  if src = "badsource" then none else some [("temp", "5")]

def rawGoodC2 : ProxyInfoEntry :=
  { wtype := "current", source := { name := "GoodSource", urls := [] }
    data := some "{}", url := "http://good", location := [("id", "1")] }

def rawBadC2 : ProxyInfoEntry :=
  { wtype := "current", source := { name := "BadSource", urls := [] }
    data := some "zzz", url := "http://bad", location := [("id", "1")] }

theorem claim_C2_witness :
    ∃ e, add_history_entry nzC2 [] "t0" "current" [rawGoodC2, rawBadC2] = [] ++ [e] ∧
      e.data.length = 2 ∧
      (∃ d, e.data[1]? = some d ∧ d.measurements = []) ∧
      (∃ d, e.data[0]? = some d ∧ d.measurements = [("temp", "5")]) := by
  obtain ⟨e, he, hlen, hall⟩ := claim_C2 nzC2 [] "t0" "current" [rawGoodC2, rawBadC2]
  obtain ⟨d1, hd1, _, _, hfail, _⟩ := hall ⟨1, by decide⟩
  obtain ⟨d0, hd0, _, _, _, hok⟩ := hall ⟨0, by decide⟩
  exact ⟨e, he, hlen, ⟨d1, hd1, hfail (by rfl)⟩, ⟨d0, hd0, hok _ (by rfl)⟩⟩

/-- C8: on every state of the history log, the `dates` accessor returns
the recorded timestamps in append order without raising (in particular
the empty sequence on the empty log), and a log whose first stored value
is malformed (not a dict, e.g. `None`) yields the empty sequence via the
caught `TypeError` instead of raising. -/
theorem claim_C8 (log : List HistoryEntry) :
    dates (log.map HistoryEntry.toPy) = .ok (log.map (fun e => PyVal.str e.time)) ∧
    dates [] = .ok [] ∧
    (∀ rest : List PyVal, dates (PyVal.nullv :: rest) = .ok []) := by
  have hcomp : ∀ l : List HistoryEntry,
      timesComprehension (l.map HistoryEntry.toPy)
        = .ok (l.map (fun e => PyVal.str e.time)) := by
    intro l
    induction l with
    | nil => rfl
    | cons e rest ih =>
        simp only [List.map_cons, timesComprehension, ih]
        rfl
  refine ⟨?_, rfl, fun rest => rfl⟩
  rw [dates, hcomp]

/-- C3: across every sequence of orchestrator refresh calls, each call
captures the clock reading exactly once and reuses it as the appended
entry's timestamp (so the appended timestamps are the captured readings
in call order, one entry per call), and whenever the captured readings
are pairwise non-decreasing under any order, so are the timestamps of the
appended entries in append order. -/
theorem claim_C3 (normalize : Normalize) (c : Core) (calls : List RefreshCall) :
    ((runRefreshes normalize c calls).history.map (fun e => e.time)
      = c.history.map (fun e => e.time) ++ calls.map (fun call => call.rtime)) ∧
    ((runRefreshes normalize c calls).history.length
      = c.history.length + calls.length) ∧
    (∀ r : String → String → Prop,
      List.Pairwise r (calls.map (fun call => call.rtime)) →
      List.Pairwise r
        (((runRefreshes normalize c calls).history.drop c.history.length).map
          (fun e => e.time))) := by
  have htimes : ∀ (calls : List RefreshCall) (c : Core),
      (runRefreshes normalize c calls).history.map (fun e => e.time)
        = c.history.map (fun e => e.time) ++ calls.map (fun call => call.rtime) := by
    intro calls
    induction calls with
    | nil => intro c; simp [runRefreshes]
    | cons call rest ih =>
        intro c
        show (runRefreshes normalize (c.refresh call.wtype call.rtime call.fetch normalize)
            rest).history.map (fun e => e.time) = _
        rw [ih]
        show (add_history_entry normalize c.history call.rtime call.wtype _).map
            (fun e => e.time) ++ _ = _
        rw [add_history_entry_eq]
        simp
  have hlen : (runRefreshes normalize c calls).history.length
      = c.history.length + calls.length := by
    have := congrArg List.length (htimes calls c)
    simpa using this
  refine ⟨htimes calls c, hlen, ?_⟩
  intro r hr
  have hdrop : (((runRefreshes normalize c calls).history.drop c.history.length).map
      (fun e => e.time)) = calls.map (fun call => call.rtime) := by
    rw [List.map_drop]
    rw [htimes calls c]
    have hl : (c.history.map (fun e => e.time)).length = c.history.length := by simp
    rw [← hl, List.drop_left]
  rw [hdrop]
  exact hr

def nzC3 : Normalize := fun _ _ _ => none

def coreC3 : Core :=
  { proxies := { table := [], wtypes := ["current"], sources_info := [] }
    history := [] }

def callC3 : RefreshCall :=
  { wtype := "current", rtime := "1467060480.1"
    fetch := fun _ => .error .connectionRefused }

theorem claim_C3_witness :
    ((runRefreshes nzC3 coreC3 [callC3, callC3]).history.map (fun e => e.time)
      = ["1467060480.1", "1467060480.1"]) ∧
    List.Pairwise (· = ·)
      (((runRefreshes nzC3 coreC3 [callC3, callC3]).history.drop
        coreC3.history.length).map (fun e => e.time)) := by
  have h := claim_C3 nzC3 coreC3 [callC3, callC3]
  exact ⟨by simpa [coreC3, callC3] using h.1, h.2.2 (· = ·) (by decide)⟩

/-! ## Lemmas: adding a location -/

theorem mkProxyEntry_eq_some {c : String} {s : Source} {L p : StrMap} {e : ProxyEntry}
    (h : mkProxyEntry c s L p = some e) :
    e.wtype = c ∧ e.source = s ∧ e.location = L := by
  unfold mkProxyEntry at h
  cases hu : dictLookup' s.urls c with
  | none => rw [hu] at h; simp at h
  | some tmpl =>
      rw [hu] at h
      simp only [Option.map_some', Option.some.injEq] at h
      subst h
      exact ⟨rfl, rfl, rfl⟩

theorem wsProduct_length (ws : List String) (ss : List Source) :
    (wsProduct ws ss).length = ws.length * ss.length := by
  induction ws with
  | nil => simp [wsProduct]
  | cons w rest ih =>
      simp only [wsProduct, List.flatMap_cons, List.length_append, List.length_map,
        List.length_cons] at *
      rw [ih]
      ring

theorem add_location_eq {t t' : WeatherProxyTable} {L p : StrMap}
    (h : t.add_location L p = some t') :
    ∃ es, t'.table = t.table ++ es ∧ t'.wtypes = t.wtypes ∧
      t'.sources_info = t.sources_info ∧
      List.Forall₂ (fun a b => mkProxyEntry a.1 a.2 L p = some b)
        (wsProduct t.wtypes t.sources_info) es := by
  unfold WeatherProxyTable.add_location at h
  cases hm : mapOpt (fun q => mkProxyEntry q.1 q.2 L p) (wsProduct t.wtypes t.sources_info) with
  | none => rw [hm] at h; simp at h
  | some es =>
      rw [hm] at h
      simp only [Option.map_some', Option.some.injEq] at h
      subst h
      exact ⟨es, rfl, rfl, rfl, mapOpt_eq_some hm⟩

theorem forall2_mkProxyEntry {L p : StrMap} :
    ∀ {l : List (String × Source)} {es : List ProxyEntry},
      List.Forall₂ (fun a b => mkProxyEntry a.1 a.2 L p = some b) l es →
      es.map (fun e => (e.wtype, e.source)) = l ∧
      es.map shapeOfEntry = l.map (fun q => (q.1, q.2, L)) ∧
      ∀ e ∈ es, e.location = L := by
  intro l es h
  induction h with
  | nil => simp
  | cons hab htail ih =>
      obtain ⟨h1, h2, h3⟩ := mkProxyEntry_eq_some hab
      refine ⟨?_, ?_, ?_⟩
      · simp only [List.map_cons, ih.1, h1, h2]
      · simp only [List.map_cons, ih.2.1, shapeOfEntry, h1, h2, h3]
      · intro e he
        rcases List.mem_cons.mp he with rfl | hmem
        · exact h3
        · exact ih.2.2 e hmem

/-! ## Claims C4, C5 -/

/-- C4: on success, `addLocation(L, params)` appends exactly
`|categories| × |sources|` new matrix entries, one per (weather-type,
source) pair in product order, each with location `L`, leaving every
pre-existing entry unchanged. -/
theorem claim_C4 (t : WeatherProxyTable) (L params : StrMap) (t' : WeatherProxyTable)
    (h : t.add_location L params = some t') :
    ∃ es, t'.table = t.table ++ es ∧
      es.length = t.wtypes.length * t.sources_info.length ∧
      es.map (fun e => (e.wtype, e.source)) = wsProduct t.wtypes t.sources_info ∧
      ∀ e ∈ es, e.location = L := by
  obtain ⟨es, htab, _, _, hfa⟩ := add_location_eq h
  obtain ⟨hshape, _, hloc⟩ := forall2_mkProxyEntry hfa
  refine ⟨es, htab, ?_, hshape, hloc⟩
  rw [← wsProduct_length t.wtypes t.sources_info, ← hfa.length_eq]

def srcC4 : Source := { name := "s", urls := [("current", [UrlSeg.key "id"])] }

def locC4 : StrMap := [("id", "7")]

def tC4 : WeatherProxyTable :=
  { table := [], wtypes := ["current"], sources_info := [srcC4] }

def entC4 : ProxyEntry :=
  { proxy := { url := "7", url_params := [("id", "7")], data := none, status_code := none }
    wtype := "current", source := srcC4, location := locC4 }

def tC4' : WeatherProxyTable :=
  { table := [entC4], wtypes := ["current"], sources_info := [srcC4] }

theorem claim_C4_witness :
    tC4'.table.map (fun e => (e.wtype, e.source)) = wsProduct tC4.wtypes tC4.sources_info ∧
    tC4'.table.length = tC4.wtypes.length * tC4.sources_info.length := by
  obtain ⟨es, h1, h2, h3, _⟩ := claim_C4 tC4 locC4 [] tC4' rfl
  have hes : tC4'.table = es := by simpa [tC4] using h1
  rw [hes]
  exact ⟨h3, h2⟩

/-- C5: after `removeLocation(L)` no matrix entry has a location
structurally equal to `L`, and every entry whose location differs from
`L` is preserved in order, identity and count. -/
theorem claim_C5 (t : WeatherProxyTable) (L : StrMap) :
    (∀ e ∈ (t.remove_location L).table, dictBeq e.location L = false) ∧
    List.Sublist (t.remove_location L).table t.table ∧
    (∀ e : ProxyEntry, dictBeq e.location L = false →
      (t.remove_location L).table.count e = t.table.count e) := by
  refine ⟨?_, ?_, ?_⟩
  · intro e he
    have := List.of_mem_filter he
    simpa using this
  · exact List.filter_sublist t.table
  · intro e hbe
    show (t.table.filter (fun x => ! dictBeq x.location L)).count e = t.table.count e
    exact List.count_filter (by simp [hbe])

def locC5 : StrMap := [("id", "1")]

def locC5' : StrMap := [("id", "2")]

def entC5a : ProxyEntry :=
  { proxy := { url := "", url_params := [], data := none, status_code := none }
    wtype := "current", source := { name := "s", urls := [] }, location := locC5 }

def entC5b : ProxyEntry :=
  { proxy := { url := "", url_params := [], data := none, status_code := none }
    wtype := "current", source := { name := "s", urls := [] }, location := locC5' }

def tC5 : WeatherProxyTable :=
  { table := [entC5a, entC5b], wtypes := ["current"], sources_info := [] }

theorem claim_C5_witness :
    (tC5.remove_location locC5).table.count entC5b = tC5.table.count entC5b :=
  (claim_C5 tC5 locC5).2.2 entC5b (by decide)

/-! ## Claim C10 -/

theorem refresh_shape (t : WeatherProxyTable) (w : String) (f : Nat → FetchOutcome) :
    (t.refresh w f).table.map shapeOfEntry = t.table.map shapeOfEntry := by
  show (t.table.mapIdx _).map shapeOfEntry = _
  rw [List.mapIdx_eq_ofFn, List.map_ofFn]
  conv_rhs => rw [← List.ofFn_get t.table, List.map_ofFn]
  congr 1
  funext i
  by_cases h : t.table[i.val].wtype = w <;> simp [shapeOfEntry, Function.comp, h]

theorem runTableOps_shape :
    ∀ (ops : List TableOp) (t t' : WeatherProxyTable),
      runTableOps t ops = some t' →
      t'.wtypes = t.wtypes ∧ t'.sources_info = t.sources_info ∧
      t'.table.map shapeOfEntry
        = t.table.map shapeOfEntry
          ++ (opLocations ops).flatMap
              (fun L => (wsProduct t.wtypes t.sources_info).map (fun q => (q.1, q.2, L))) := by
  intro ops
  induction ops with
  | nil =>
      intro t t' h
      simp only [runTableOps, Option.some.injEq] at h
      subst h
      simp [opLocations]
  | cons op rest ih =>
      intro t t' h
      cases op with
      | addLoc L p =>
          simp only [runTableOps] at h
          cases hadd : t.add_location L p with
          | none => rw [hadd] at h; simp at h
          | some t1 =>
              rw [hadd] at h
              obtain ⟨hw, hs, htab⟩ := ih t1 t' h
              obtain ⟨es, htab1, hw1, hs1, hfa⟩ := add_location_eq hadd
              obtain ⟨_, hshape, _⟩ := forall2_mkProxyEntry hfa
              refine ⟨hw.trans hw1, hs.trans hs1, ?_⟩
              rw [htab, htab1, List.map_append, hshape, hw1, hs1]
              simp [opLocations, List.append_assoc]
      | doRefresh w f =>
          simp only [runTableOps] at h
          obtain ⟨hw, hs, htab⟩ := ih _ _ h
          refine ⟨hw, hs, ?_⟩
          rw [htab, refresh_shape]
          simp only [opLocations, List.filterMap_cons]
          rfl

/-- C10: on every matrix state built from an empty table by a sequence of
location additions and refreshes, `proxy_info` returns exactly one
snapshot per matrix entry, the snapshots' identifying triples being one
per (weather-type × source) pair per added location — locations in
addition order, product order within a location; reading is a pure
function of the state. -/
theorem claim_C10 (ws : List String) (ss : List Source) (ops : List TableOp)
    (t : WeatherProxyTable)
    (h : runTableOps { table := [], wtypes := ws, sources_info := ss } ops = some t) :
    t.proxy_info.length = t.table.length ∧
    t.proxy_info.map shapeOfInfo
      = (opLocations ops).flatMap
          (fun L => (wsProduct ws ss).map (fun q => (q.1, q.2, L))) := by
  constructor
  · simp [WeatherProxyTable.proxy_info]
  · have hkey : t.proxy_info.map shapeOfInfo = t.table.map shapeOfEntry := by
      simp [WeatherProxyTable.proxy_info, List.map_map, shapeOfInfo, shapeOfEntry,
        Function.comp]
    obtain ⟨_, _, htab⟩ := runTableOps_shape ops _ t h
    rw [hkey, htab]
    simp

def srcC10 : Source := { name := "s", urls := [("current", [UrlSeg.lit "u"])] }

def locC10 : StrMap := [("id", "1")]

def opsC10 : List TableOp :=
  [.addLoc locC10 [], .doRefresh "current" (fun _ => .error .connectionRefused)]

def tC10 : WeatherProxyTable :=
  { table := [{ proxy := { url := "u", url_params := locC10
                           data := some "", status_code := some 404 }
                wtype := "current", source := srcC10, location := locC10 }]
    wtypes := ["current"], sources_info := [srcC10] }

theorem claim_C10_witness :
    tC10.proxy_info.map shapeOfInfo
      = (opLocations opsC10).flatMap
          (fun L => (wsProduct ["current"] [srcC10]).map (fun q => (q.1, q.2, L))) :=
  (claim_C10 ["current"] [srcC10] opsC10 tC10 rfl).2

/-! ## Lemmas: the heap model of `entries` -/

theorem getElem?_append_left' {α : Type} {l₁ l₂ : List α} {i : Nat} (h : i < l₁.length) :
    (l₁ ++ l₂)[i]? = l₁[i]? := by
  rw [List.getElem?_append, if_pos h]

theorem getElem?_append_length {α : Type} {l : List α} {x : α} :
    (l ++ [x])[l.length]? = some x := by
  rw [List.getElem?_append, if_neg (by omega)]
  simp

theorem closedBelow_spec {bound : Nat} {h : Heap} (hc : closedBelow bound h = true)
    {i : Nat} (hi : i < bound) {n : Node} (hn : h[i]? = some n) :
    ∀ c ∈ n.children, c < bound := by
  unfold closedBelow at hc
  rw [List.all_eq_true] at hc
  have h2 := hc i (List.mem_range.mpr hi)
  simp only [hn] at h2
  intro c hcmem
  exact of_decide_eq_true (List.all_eq_true.mp h2 c hcmem)

theorem readVal_congr (base : Nat) :
    ∀ (fuel : Nat) (h₁ h₂ : Heap) (a : Nat), a < base →
      (∀ i, i < base → h₁[i]? = h₂[i]?) →
      closedBelow base h₁ = true →
      readVal h₁ fuel a = readVal h₂ fuel a := by
  intro fuel
  induction fuel with
  | zero => intro h₁ h₂ a _ _ _; rfl
  | succ fuel ih =>
      intro h₁ h₂ a ha hagree hcl
      simp only [readVal]
      rw [← hagree a ha]
      split
      · rfl
      · rfl
      · rfl
      · rfl
      · rename_i es hnode
        have hch := closedBelow_spec hcl ha hnode
        have heq : mapOpt (readVal h₁ fuel) es = mapOpt (readVal h₂ fuel) es :=
          mapOpt_congr (fun c hc => ih h₁ h₂ c (hch c hc) hagree hcl)
        rw [heq]
      · rename_i fs hnode
        have hch := closedBelow_spec hcl ha hnode
        have heq : mapOpt (fun p => (readVal h₁ fuel p.2).map (fun v => (p.1, v))) fs
            = mapOpt (fun p => (readVal h₂ fuel p.2).map (fun v => (p.1, v))) fs := by
          apply mapOpt_congr
          intro p hp
          rw [ih h₁ h₂ p.2 (hch p.2 (List.mem_map_of_mem _ hp)) hagree hcl]
        rw [heq]

/-- What one successful copy call guarantees: the working heap is only
extended, the returned address is fresh and in range, and every fresh
cell points only at fresh cells allocated before it. -/
def CopySpec (f : Heap → Nat → Option (Heap × Nat)) : Prop :=
  ∀ h h' a r, f h a = some (h', r) →
    (∃ ext, h' = h ++ ext) ∧ h.length ≤ r ∧ r < h'.length ∧
    (∀ i, h.length ≤ i → ∀ n, h'[i]? = some n → ∀ c ∈ n.children, h.length ≤ c ∧ c < i)

theorem copyManyWith_spec {f : Heap → Nat → Option (Heap × Nat)} (hf : CopySpec f) :
    ∀ (as : List Nat) (h h' : Heap) (rs : List Nat),
      copyManyWith f h as = some (h', rs) →
      (∃ ext, h' = h ++ ext) ∧ rs.length = as.length ∧
      (∀ r ∈ rs, h.length ≤ r ∧ r < h'.length) ∧
      (∀ i, h.length ≤ i → ∀ n, h'[i]? = some n → ∀ c ∈ n.children, h.length ≤ c ∧ c < i) := by
  intro as
  induction as with
  | nil =>
      intro h h' rs hq
      simp only [copyManyWith, Option.some.injEq, Prod.mk.injEq] at hq
      obtain ⟨rfl, rfl⟩ := hq
      refine ⟨⟨[], by simp⟩, rfl, by simp, ?_⟩
      intro i hi n hn c _
      rw [List.getElem?_eq_none (by omega)] at hn
      exact absurd hn (by simp)
  | cons a rest ih =>
      intro h h' rs hq
      simp only [copyManyWith] at hq
      split at hq
      · rename_i h₁ r hfa
        split at hq
        · rename_i h₂ rs' hrest
          simp only [Option.some.injEq, Prod.mk.injEq] at hq
          obtain ⟨rfl, rfl⟩ := hq
          obtain ⟨⟨e₁, he₁⟩, hr₁, hr₂, hcl₁⟩ := hf h h₁ a r hfa
          obtain ⟨⟨e₂, he₂⟩, hlen, hbound, hcl₂⟩ := ih h₁ h₂ rs' hrest
          have hlen₁ : h.length ≤ h₁.length := by rw [he₁]; simp
          have hlen₂ : h₁.length ≤ h₂.length := by rw [he₂]; simp
          refine ⟨⟨e₁ ++ e₂, by rw [he₂, he₁, List.append_assoc]⟩, by simp [hlen], ?_, ?_⟩
          · intro r' hr'
            rcases List.mem_cons.mp hr' with rfl | hmem
            · exact ⟨hr₁, lt_of_lt_of_le hr₂ hlen₂⟩
            · obtain ⟨hb1, hb2⟩ := hbound r' hmem
              exact ⟨le_trans hlen₁ hb1, hb2⟩
          · intro i hi n hn c hc
            by_cases hcase : i < h₁.length
            · have hn' : h₁[i]? = some n := by
                rw [he₂] at hn
                rwa [getElem?_append_left' hcase] at hn
              exact hcl₁ i hi n hn' c hc
            · obtain ⟨hb1, hb2⟩ := hcl₂ i (by omega) n hn c hc
              exact ⟨le_trans hlen₁ hb1, hb2⟩
        · simp at hq
      · simp at hq

theorem copy_leaf_spec {h : Heap} {n : Node} (hleaf : n.children = []) :
    (∃ ext, h ++ [n] = h ++ ext) ∧ h.length ≤ h.length ∧ h.length < (h ++ [n]).length ∧
    (∀ i, h.length ≤ i → ∀ m, (h ++ [n])[i]? = some m →
      ∀ c ∈ m.children, h.length ≤ c ∧ c < i) := by
  refine ⟨⟨[n], rfl⟩, le_refl _, by simp, ?_⟩
  intro i hi m hm c hc
  by_cases hcase : i = h.length
  · subst hcase
    rw [getElem?_append_length] at hm
    injection hm with hm
    subst hm
    rw [hleaf] at hc
    exact absurd hc (List.not_mem_nil c)
  · rw [List.getElem?_eq_none (by simp; omega)] at hm
    exact absurd hm (by simp)

theorem copyAddr_spec : ∀ (fuel : Nat) (src : Heap), CopySpec (copyAddr src fuel) := by
  intro fuel
  induction fuel with
  | zero => intro src h h' a r hq; simp [copyAddr] at hq
  | succ fuel ih =>
      intro src h h' a r hq
      simp only [copyAddr] at hq
      split at hq
      · simp at hq
      · rename_i s hsrc
        simp only [Option.some.injEq, Prod.mk.injEq] at hq
        obtain ⟨rfl, rfl⟩ := hq
        exact copy_leaf_spec rfl
      · rename_i m hsrc
        simp only [Option.some.injEq, Prod.mk.injEq] at hq
        obtain ⟨rfl, rfl⟩ := hq
        exact copy_leaf_spec rfl
      · rename_i hsrc
        simp only [Option.some.injEq, Prod.mk.injEq] at hq
        obtain ⟨rfl, rfl⟩ := hq
        exact copy_leaf_spec rfl
      · rename_i es hsrc
        split at hq
        · rename_i h₁ rs hmany
          simp only [Option.some.injEq, Prod.mk.injEq] at hq
          obtain ⟨rfl, rfl⟩ := hq
          obtain ⟨⟨e₁, he₁⟩, _, hbound, hcl⟩ :=
            copyManyWith_spec (ih src) es h h₁ rs hmany
          have hlh : h.length ≤ h₁.length := by rw [he₁]; simp
          refine ⟨⟨e₁ ++ [Node.arr rs], by rw [he₁, List.append_assoc]⟩, hlh,
            by simp, ?_⟩
          intro i hi n hn c hc
          by_cases hcase : i < h₁.length
          · have hn' : h₁[i]? = some n := by
              rwa [getElem?_append_left' hcase] at hn
            exact hcl i hi n hn' c hc
          · by_cases hcase2 : i = h₁.length
            · subst hcase2
              rw [getElem?_append_length] at hn
              injection hn with hn
              subst hn
              obtain ⟨hb1, hb2⟩ := hbound c hc
              exact ⟨hb1, hb2⟩
            · rw [List.getElem?_eq_none (by simp; omega)] at hn
              exact absurd hn (by simp)
        · simp at hq
      · rename_i fs hsrc
        split at hq
        · rename_i h₁ rs hmany
          simp only [Option.some.injEq, Prod.mk.injEq] at hq
          obtain ⟨rfl, rfl⟩ := hq
          obtain ⟨⟨e₁, he₁⟩, _, hbound, hcl⟩ :=
            copyManyWith_spec (ih src) (fs.map (fun p => p.2)) h h₁ rs hmany
          have hlh : h.length ≤ h₁.length := by rw [he₁]; simp
          refine ⟨⟨e₁ ++ [Node.obj ((fs.map (fun p => p.1)).zip rs)],
            by rw [he₁, List.append_assoc]⟩, hlh, by simp, ?_⟩
          intro i hi n hn c hc
          by_cases hcase : i < h₁.length
          · have hn' : h₁[i]? = some n := by
              rwa [getElem?_append_left' hcase] at hn
            exact hcl i hi n hn' c hc
          · by_cases hcase2 : i = h₁.length
            · subst hcase2
              rw [getElem?_append_length] at hn
              injection hn with hn
              subst hn
              obtain ⟨q, hq₂, hq₃⟩ := List.mem_map.mp hc
              have hmem : q.2 ∈ rs := (List.of_mem_zip hq₂).2
              obtain ⟨hb1, hb2⟩ := hbound q.2 hmem
              rw [← hq₃]
              exact ⟨hb1, hb2⟩
            · rw [List.getElem?_eq_none (by simp; omega)] at hn
              exact absurd hn (by simp)
        · simp at hq

theorem closedBelow_extend {h h' : Heap}
    (hext : ∃ ext, h' = h ++ ext)
    (hfresh : ∀ i, h.length ≤ i → ∀ n, h'[i]? = some n →
      ∀ c ∈ n.children, h.length ≤ c ∧ c < i)
    (hcl : closedBelow h.length h = true) :
    closedBelow h'.length h' = true := by
  obtain ⟨ext, rfl⟩ := hext
  have hlen : (h ++ ext).length = h.length + ext.length := List.length_append h ext
  unfold closedBelow
  rw [List.all_eq_true]
  intro i hi
  rw [List.mem_range] at hi
  by_cases hcase : i < h.length
  · rw [getElem?_append_left' hcase]
    cases hn : h[i]? with
    | none => rfl
    | some n =>
        rw [List.all_eq_true]
        intro c hc
        have hcb := closedBelow_spec hcl hcase hn c hc
        have hgoal : c < (h ++ ext).length := by omega
        exact decide_eq_true hgoal
  · cases hn : (h ++ ext)[i]? with
    | none => rfl
    | some n =>
        rw [List.all_eq_true]
        intro c hc
        obtain ⟨_, hlt⟩ := hfresh i (by omega) n hn c hc
        have hgoal : c < (h ++ ext).length := by omega
        exact decide_eq_true hgoal

theorem mapOpt_forall2_eq {α β γ : Type} {g : β → Option γ} {g' : α → Option γ} :
    ∀ {as : List α} {bs : List β},
      List.Forall₂ (fun a b => g b = g' a) as bs →
      mapOpt g bs = mapOpt g' as := by
  intro as bs h
  induction h with
  | nil => rfl
  | cons hab _ ih => simp only [mapOpt, hab, ih]

theorem obj_fields_read {g g' : Nat → Option Val} :
    ∀ {fs : List (String × Nat)} {rs : List Nat},
      List.Forall₂ (fun e r => g r = g' e) (fs.map (fun p => p.2)) rs →
      mapOpt (fun p => (g p.2).map (fun v => (p.1, v))) ((fs.map (fun p => p.1)).zip rs)
        = mapOpt (fun p => (g' p.2).map (fun v => (p.1, v))) fs := by
  intro fs
  induction fs with
  | nil =>
      intro rs h
      cases h
      rfl
  | cons p fs' ih =>
      intro rs h
      cases h with
      | cons hab htail =>
          have ih' := ih htail
          simp only [List.zip] at ih'
          simp only [List.map_cons, List.zip_cons_cons, mapOpt, hab, ih']

theorem copyManyWith_read {f : Heap → Nat → Option (Heap × Nat)}
    {read : Heap → Nat → Option Val} {srcRead : Nat → Option Val}
    (hf_spec : CopySpec f)
    (hf_read : ∀ h h' a r, f h a = some (h', r) → closedBelow h.length h = true →
      read h' r = srcRead a)
    (hread_congr : ∀ (h₁ h₂ : Heap) (r : Nat), r < h₁.length →
      (∀ i, i < h₁.length → h₁[i]? = h₂[i]?) → closedBelow h₁.length h₁ = true →
      read h₁ r = read h₂ r) :
    ∀ (as : List Nat) (h h' : Heap) (rs : List Nat),
      copyManyWith f h as = some (h', rs) →
      closedBelow h.length h = true →
      closedBelow h'.length h' = true ∧
      List.Forall₂ (fun a r => read h' r = srcRead a) as rs := by
  intro as
  induction as with
  | nil =>
      intro h h' rs hq hcl
      simp only [copyManyWith, Option.some.injEq, Prod.mk.injEq] at hq
      obtain ⟨rfl, rfl⟩ := hq
      exact ⟨hcl, List.Forall₂.nil⟩
  | cons a rest ih =>
      intro h h' rs hq hcl
      simp only [copyManyWith] at hq
      split at hq
      · rename_i h₁ r hfa
        split at hq
        · rename_i h₂ rs' hrest
          simp only [Option.some.injEq, Prod.mk.injEq] at hq
          obtain ⟨rfl, rfl⟩ := hq
          have spec₁ := hf_spec h h₁ a r hfa
          have hcl₁ : closedBelow h₁.length h₁ = true :=
            closedBelow_extend spec₁.1 spec₁.2.2.2 hcl
          obtain ⟨hcl', hfa₂⟩ := ih h₁ h₂ rs' hrest hcl₁
          have hr₁ : read h₁ r = srcRead a := hf_read h h₁ a r hfa hcl
          obtain ⟨⟨e₂, he₂⟩, _, _, _⟩ := copyManyWith_spec hf_spec rest h₁ h₂ rs' hrest
          have hrr : read h₁ r = read h₂ r := by
            apply hread_congr h₁ h₂ r spec₁.2.2.1 ?_ hcl₁
            intro i hi
            rw [he₂, getElem?_append_left' hi]
          exact ⟨hcl', List.Forall₂.cons (by rw [← hrr, hr₁]) hfa₂⟩
        · simp at hq
      · simp at hq

theorem copyAddr_read :
    ∀ (fuel : Nat) (src : Heap) (h h' : Heap) (a r : Nat),
      copyAddr src fuel h a = some (h', r) →
      closedBelow h.length h = true →
      readVal h' fuel r = readVal src fuel a := by
  intro fuel
  induction fuel with
  | zero => intro src h h' a r hq _; simp [copyAddr] at hq
  | succ fuel ih =>
      intro src h h' a r hq hcl
      simp only [copyAddr] at hq
      split at hq
      · simp at hq
      · rename_i s hsrc
        simp only [Option.some.injEq, Prod.mk.injEq] at hq
        obtain ⟨rfl, rfl⟩ := hq
        simp only [readVal, hsrc, getElem?_append_length]
      · rename_i m hsrc
        simp only [Option.some.injEq, Prod.mk.injEq] at hq
        obtain ⟨rfl, rfl⟩ := hq
        simp only [readVal, hsrc, getElem?_append_length]
      · rename_i hsrc
        simp only [Option.some.injEq, Prod.mk.injEq] at hq
        obtain ⟨rfl, rfl⟩ := hq
        simp only [readVal, hsrc, getElem?_append_length]
      · rename_i es hsrc
        split at hq
        · rename_i h₁ rs hmany
          simp only [Option.some.injEq, Prod.mk.injEq] at hq
          obtain ⟨rfl, rfl⟩ := hq
          obtain ⟨hcl₁, hfa⟩ := copyManyWith_read (copyAddr_spec fuel src)
            (fun hh hh' aa rr hq2 hcl2 => ih src hh hh' aa rr hq2 hcl2)
            (fun hh₁ hh₂ rr hrlt hag hclx =>
              readVal_congr hh₁.length fuel hh₁ hh₂ rr hrlt hag hclx)
            es h h₁ rs hmany hcl
          simp only [readVal, hsrc, getElem?_append_length]
          have hstep : mapOpt (readVal (h₁ ++ [Node.arr rs]) fuel) rs
              = mapOpt (readVal h₁ fuel) rs := by
            apply mapOpt_congr
            intro c hcmem
            obtain ⟨_, _, hbound, _⟩ :=
              copyManyWith_spec (copyAddr_spec fuel src) es h h₁ rs hmany
            exact (readVal_congr h₁.length fuel h₁ (h₁ ++ [Node.arr rs]) c
              (hbound c hcmem).2 (fun i hi => (getElem?_append_left' hi).symm) hcl₁).symm
          rw [hstep, mapOpt_forall2_eq hfa]
        · simp at hq
      · rename_i fs hsrc
        split at hq
        · rename_i h₁ rs hmany
          simp only [Option.some.injEq, Prod.mk.injEq] at hq
          obtain ⟨rfl, rfl⟩ := hq
          obtain ⟨hcl₁, hfa⟩ := copyManyWith_read (copyAddr_spec fuel src)
            (fun hh hh' aa rr hq2 hcl2 => ih src hh hh' aa rr hq2 hcl2)
            (fun hh₁ hh₂ rr hrlt hag hclx =>
              readVal_congr hh₁.length fuel hh₁ hh₂ rr hrlt hag hclx)
            (fs.map (fun p => p.2)) h h₁ rs hmany hcl
          simp only [readVal, hsrc, getElem?_append_length]
          have hstep : mapOpt (fun p =>
                (readVal (h₁ ++ [Node.obj ((fs.map (fun p => p.1)).zip rs)]) fuel p.2).map
                  (fun v => (p.1, v)))
                ((fs.map (fun p => p.1)).zip rs)
              = mapOpt (fun p => (readVal h₁ fuel p.2).map (fun v => (p.1, v)))
                ((fs.map (fun p => p.1)).zip rs) := by
            apply mapOpt_congr
            intro q hqmem
            obtain ⟨_, _, hbound, _⟩ :=
              copyManyWith_spec (copyAddr_spec fuel src) (fs.map (fun p => p.2)) h h₁ rs hmany
            have hq2 : q.2 ∈ rs := (List.of_mem_zip hqmem).2
            rw [(readVal_congr h₁.length fuel h₁ _ q.2 (hbound q.2 hq2).2
              (fun i hi => (getElem?_append_left' hi).symm) hcl₁).symm]
          rw [hstep, obj_fields_read hfa]
        · simp at hq

theorem copy_success_root_lt {src : Heap} {fuel : Nat} {h h' : Heap} {a r : Nat}
    (hq : copyAddr src fuel h a = some (h', r)) : a < src.length := by
  cases fuel with
  | zero => simp [copyAddr] at hq
  | succ fuel =>
      simp only [copyAddr] at hq
      by_contra hcon
      have hle : src.length ≤ a := Nat.le_of_not_lt hcon
      rw [List.getElem?_eq_none hle] at hq
      simp at hq

/-! ## Claim C6 -/

/-- C6: the `entries` accessor (`json.loads(json.dumps(table))`) returns
a deep, structurally independent copy of the stored log: the copy reads
back equal to the stored value, every object reachable from it lives in
fresh cells, and after mutating any fresh cell (hence any part of the
returned structure) the stored log still reads back exactly as before,
so a subsequent read returns the same contents. -/
theorem claim_C6 (h : Heap) (root : Nat) (fuel : Nat) (h' : Heap) (r : Nat)
    (hentries : entries h root fuel = some (h', r))
    (hclosed : closedBelow h.length h = true) :
    readVal h' fuel r = readVal h fuel root ∧
    (∀ c, Reach h' r c → h.length ≤ c) ∧
    (∀ a n, h.length ≤ a →
      readVal (writeHeap h' a n) fuel root = readVal h fuel root) ∧
    readVal h' fuel root = readVal h fuel root := by
  have hq : copyAddr h fuel h root = some (h', r) := hentries
  obtain ⟨⟨ext, hext⟩, hle, hlt, hfresh⟩ := copyAddr_spec fuel h h h' root r hq
  have hroot : root < h.length := copy_success_root_lt hq
  refine ⟨copyAddr_read fuel h h h' root r hq hclosed, ?_, ?_, ?_⟩
  · intro c hreach
    induction hreach with
    | refl => exact hle
    | step _ hb hc ih => exact (hfresh _ ih _ hb _ hc).1
  · intro a n ha
    refine (readVal_congr h.length fuel h (writeHeap h' a n) root hroot ?_ hclosed).symm
    intro i hi
    show h[i]? = (h'.set a n)[i]?
    rw [List.getElem?_set_ne (show a ≠ i by omega), hext, getElem?_append_left' hi]
  · refine (readVal_congr h.length fuel h h' root hroot ?_ hclosed).symm
    intro i hi
    rw [hext, getElem?_append_left' hi]

def heapC6 : Heap :=
  [Node.str "1467060480.1", Node.obj [("time", 0)], Node.arr [1]]

def heapC6' : Heap :=
  [Node.str "1467060480.1", Node.obj [("time", 0)], Node.arr [1],
   Node.str "1467060480.1", Node.obj [("time", 3)], Node.arr [4]]

theorem claim_C6_witness :
    readVal heapC6' 4 5 = readVal heapC6 4 2 ∧
    readVal (writeHeap heapC6' 4 (Node.str "tampered")) 4 2 = readVal heapC6 4 2 := by
  have h := claim_C6 heapC6 2 4 heapC6' 5 rfl (by decide)
  exact ⟨h.1, h.2.2.1 4 (Node.str "tampered") (by decide)⟩

end Weatherchecker
